import Mathlib

/-!
Verification of the maven-dependency-analyze core: the dependency tree
model (src/models/dependency.py), the analysis result model
(src/models/analysis_result.py) and the redundancy / version-conflict
engine (src/analyzer/redundancy_analyzer.py), shallowly embedded in Lean.

Modelling conventions:
* A `Dependency` node is an inductive tree; the Python `parent`
  back-reference is not represented (it is a non-owning pointer that the
  analyzed operations never consult, except for a display column that no
  claim touches).
* Python `set` objects of `Dependency` values (whose `__hash__`/`__eq__`
  are by the full coordinate string) are represented by their insertion
  sequence deduplicated by coordinate, keeping the first-inserted
  representative, which is what CPython `set.add`/`set.update` keep.  The
  iteration order of such a set is not determined by the program input
  (string hashing is randomized per process), so every consumer of a set
  is parameterized by an enumeration function `enum` that is only assumed
  to produce a permutation of the canonical insertion sequence.
* Python `dict` objects are insertion-ordered association lists.
-/

/-- Dependency node, from `class Dependency` in src/models/dependency.py:
fields group_id, artifact_id, version, scope (default ""), type
(default "jar"), classifier (default ""), optional (default False),
depth (default 0), children (default []). -/
inductive Dependency : Type where
  | mk : (group_id artifact_id version scope : String) →
         (type classifier : String) → (optional : Bool) →
         (depth : Nat) → (children : List Dependency) → Dependency

/-- Accessor for the group_id field. -/
def Dependency.group_id : Dependency → String
  | .mk g _ _ _ _ _ _ _ _ => g

/-- Accessor for the artifact_id field. -/
def Dependency.artifact_id : Dependency → String
  | .mk _ a _ _ _ _ _ _ _ => a

/-- Accessor for the version field. -/
def Dependency.version : Dependency → String
  | .mk _ _ v _ _ _ _ _ _ => v

/-- Accessor for the scope field. -/
def Dependency.scope : Dependency → String
  | .mk _ _ _ s _ _ _ _ _ => s

/-- Accessor for the type field. -/
def Dependency.type : Dependency → String
  | .mk _ _ _ _ ty _ _ _ _ => ty

/-- Accessor for the classifier field. -/
def Dependency.classifier : Dependency → String
  | .mk _ _ _ _ _ c _ _ _ => c

/-- Accessor for the optional field. -/
def Dependency.optional : Dependency → Bool
  | .mk _ _ _ _ _ _ o _ _ => o

/-- Accessor for the depth field. -/
def Dependency.depth : Dependency → Nat
  | .mk _ _ _ _ _ _ _ d _ => d

/-- Accessor for the children field. -/
def Dependency.children : Dependency → List Dependency
  | .mk _ _ _ _ _ _ _ _ cs => cs

/-- Full coordinate, from `Dependency.coordinate`:
groupId:artifactId:type:version:scope. -/
def Dependency.coordinate (d : Dependency) : String :=
  d.group_id ++ ":" ++ d.artifact_id ++ ":" ++ d.type ++ ":" ++
    d.version ++ ":" ++ d.scope

/-- Simple coordinate, from `Dependency.simple_coordinate`:
groupId:artifactId:version. -/
def Dependency.simple_coordinate (d : Dependency) : String :=
  d.group_id ++ ":" ++ d.artifact_id ++ ":" ++ d.version

/-- Python equality of nodes, from `Dependency.__eq__`: two nodes compare
equal exactly when their full coordinates are equal. -/
def Dependency.pyEq (a b : Dependency) : Bool :=
  a.coordinate == b.coordinate

/-- Hash key of a node, from `Dependency.__hash__`, which returns
`hash(self.coordinate)`: the hash is a function of the full coordinate
alone, so the coordinate string is taken as the hash key. -/
def Dependency.hashKey (d : Dependency) : String :=
  d.coordinate

mutual

/-- Pre-order sequence of a subtree, from `DependencyTree.flatten`
(the inner `traverse` appends the node, then recurses into the children
in order). -/
def flattenNode : Dependency → List Dependency
  | .mk g a v s ty c o dp cs =>
      Dependency.mk g a v s ty c o dp cs :: flattenList cs

/-- Pre-order sequence of a forest, one subtree after the other. -/
def flattenList : List Dependency → List Dependency
  | [] => []
  | d :: ds => flattenNode d ++ flattenList ds

end

/-- Generic first-occurrence deduplication keyed by `key`, with an
accumulator of the keys already seen.  This models the three dedup
mechanisms of the source: a Python `set` of nodes hashed by coordinate,
`dict.fromkeys` over strings, and the distinct-value collection of the
version-conflict grouping. -/
def firstOccBy {α β : Type} [DecidableEq β] (key : α → β) :
    List β → List α → List α
  | _, [] => []
  | seen, x :: xs =>
      if key x ∈ seen then firstOccBy key seen xs
      else x :: firstOccBy key (key x :: seen) xs

/-- Descendant set of a node, from `Dependency.get_all_descendants`: the
strict descendants are inserted into a Python set in pre-order (each
child followed by its own descendants); the set deduplicates by the full
coordinate (via `__hash__`/`__eq__`) keeping the first-inserted node. -/
def Dependency.get_all_descendants (d : Dependency) : List Dependency :=
  firstOccBy Dependency.coordinate [] (flattenList d.children)

/-- Size of the children list is smaller than the size of the node. -/
theorem Dependency.sizeOf_children_lt (d : Dependency) :
    sizeOf d.children < sizeOf d := by
  cases d with
  | mk g a v s ty c o dp cs =>
    simp [Dependency.children]

mutual

/-- Path search, from `Dependency.find_path_to`: if the node itself
matches the target by full or simple coordinate the path is the
singleton, otherwise the children are tried in declaration order and the
first child returning a path wins.  The source tests `if path:`, which
is equivalent to a not-None test here because every returned path is
non-empty. -/
def Dependency.find_path_to : Dependency → String → Option (List Dependency)
  | .mk g a v s ty c o dp cs, t =>
    if (Dependency.mk g a v s ty c o dp cs).coordinate = t ∨
        (Dependency.mk g a v s ty c o dp cs).simple_coordinate = t then
      some [Dependency.mk g a v s ty c o dp cs]
    else
      match findPathToList cs t with
      | some p => some (Dependency.mk g a v s ty c o dp cs :: p)
      | none => none

/-- Helper of `find_path_to`: try the children of a node in order. -/
def findPathToList : List Dependency → String → Option (List Dependency)
  | [], _ => none
  | c :: cs, t =>
    match Dependency.find_path_to c t with
    | some p => some p
    | none => findPathToList cs t

end

/-- Dependency tree, from `class DependencyTree`: a root node plus the
`all_dependencies` coordinate index, a dict from coordinate string to
the list of nodes registered under it (dicts are insertion ordered). -/
structure DependencyTree : Type where
  root : Dependency
  all_dependencies : List (String × List Dependency)

/-- Lookup in the index dict, from `self.all_dependencies.get(coordinate, [])`. -/
def dictGet (m : List (String × List Dependency)) (k : String) :
    List Dependency :=
  match m.find? (fun p => p.1 == k) with
  | some p => p.2
  | none => []

/-- One step of index construction: append `d` to the list at key `k`,
creating the key if absent (from the loop body of
`build_coordinate_index`). -/
def indexAppend (m : List (String × List Dependency)) (k : String)
    (d : Dependency) : List (String × List Dependency) :=
  if m.any (fun p => p.1 == k) then
    m.map (fun p => if p.1 == k then (p.1, p.2 ++ [d]) else p)
  else
    m ++ [(k, [d])]

/-- Pre-order sequence of the whole tree, from `DependencyTree.flatten`. -/
def DependencyTree.flatten (t : DependencyTree) : List Dependency :=
  flattenNode t.root

/-- Index construction, from `DependencyTree.build_coordinate_index`:
clear the dict, then walk the flattened tree appending every node under
its simple coordinate key. -/
def DependencyTree.build_coordinate_index (t : DependencyTree) :
    DependencyTree :=
  { t with
    all_dependencies :=
      t.flatten.foldl (fun m dep => indexAppend m dep.simple_coordinate dep) [] }

/-- Coordinate lookup, from `DependencyTree.find_dependency`. -/
def DependencyTree.find_dependency (t : DependencyTree) (c : String) :
    List Dependency :=
  dictGet t.all_dependencies c

/-- Total node count including the root, from
`DependencyTree.total_dependencies`. -/
def DependencyTree.total_dependencies (t : DependencyTree) : Nat :=
  t.flatten.length

/-- Analysis result, from `class AnalysisResult` in
src/models/analysis_result.py: the project coordinate plus the two
coordinate-string lists extracted from the usage report. -/
structure AnalysisResult : Type where
  project_coordinate : String
  used_undeclared : List String
  unused_declared : List String
deriving DecidableEq

/-- Redundancy case, from `class RedundancyCase` in
src/models/analysis_result.py. -/
structure RedundancyCase : Type where
  declared_dependency : String
  actually_used : List String
  dependency_path : List String
  recommendation : String
deriving DecidableEq

/-- Severity of a case, from `RedundancyCase.severity`: high when the
actually_used list is non-empty, medium otherwise. -/
def RedundancyCase.severity (c : RedundancyCase) : String :=
  if 0 < c.actually_used.length then "high" else "medium"

/-- Single-quote character as a string (code point 39), used to spell the
quoted fragments of the recommendation templates. -/
def sglq : String := String.mk [Char.ofNat 39]

mutual

/-- Path search of the analyzer, from
`RedundancyAnalyzer._find_path_in_tree`: identical algorithm to
`Dependency.find_path_to` except that the source writes the match
condition with the simple coordinate tested first. -/
def RedundancyAnalyzer.find_path_in_tree : Dependency → String → Option (List Dependency)
  | .mk g a v s ty c o dp cs, t =>
    if (Dependency.mk g a v s ty c o dp cs).simple_coordinate = t ∨
        (Dependency.mk g a v s ty c o dp cs).coordinate = t then
      some [Dependency.mk g a v s ty c o dp cs]
    else
      match findPathInTreeList cs t with
      | some p => some (Dependency.mk g a v s ty c o dp cs :: p)
      | none => none

/-- Helper of `find_path_in_tree`: try the children of a node in order. -/
def findPathInTreeList : List Dependency → String → Option (List Dependency)
  | [], _ => none
  | c :: cs, t =>
    match RedundancyAnalyzer.find_path_in_tree c t with
    | some p => some p
    | none => findPathInTreeList cs t

end

/-- Match test of the analyzer loops: the simple or the full coordinate
of the node occurs in the used_undeclared list (redundancy_analyzer.py
lines 35 and 64). -/
def matchesUsed (ar : AnalysisResult) (d : Dependency) : Bool :=
  ar.used_undeclared.contains d.simple_coordinate ||
    ar.used_undeclared.contains d.coordinate

/-- Path strings of a per-match case (redundancy_analyzer.py lines
39-43): search by the simple coordinate of the child, fall back to its
full coordinate, then map every path node to its simple coordinate; an
unfound path yields the empty list. -/
def pathStrsFor (node child : Dependency) : List String :=
  match RedundancyAnalyzer.find_path_in_tree node child.simple_coordinate with
  | some p => p.map Dependency.simple_coordinate
  | none =>
    match RedundancyAnalyzer.find_path_in_tree node child.coordinate with
    | some p => p.map Dependency.simple_coordinate
    | none => []

/-- Per-match redundancy case (redundancy_analyzer.py lines 45-50). -/
def perMatchCase (node child : Dependency) : RedundancyCase :=
  { declared_dependency := node.simple_coordinate
    actually_used := [child.simple_coordinate]
    dependency_path := pathStrsFor node child
    recommendation :=
      "Remove " ++ sglq ++ node.simple_coordinate ++ sglq ++
        " and directly declare " ++ sglq ++ child.simple_coordinate ++ sglq ++
        " instead" }

/-- First pass of `RedundancyAnalyzer.analyze` for one matched node
(lines 30-51): if it is a direct dependency, emit one case per
descendant (in set-iteration order, modelled by `enum`) that occurs in
the used_undeclared list. -/
def perMatchCasesFor (enum : List Dependency → List Dependency)
    (ar : AnalysisResult) (node : Dependency) : List RedundancyCase :=
  if node.depth = 1 then
    ((enum node.get_all_descendants).filter (matchesUsed ar)).map
      (perMatchCase node)
  else []

/-- Concatenated path coordinates of the aggregate pass
(redundancy_analyzer.py lines 70-74): for each used transitive
coordinate, extend the accumulator with the simple coordinates of the
found path; an unfound path contributes nothing. -/
def aggregatePaths (node : Dependency) (used : List String) : List String :=
  used.foldl
    (fun acc u =>
      match RedundancyAnalyzer.find_path_in_tree node u with
      | some p => acc ++ p.map Dependency.simple_coordinate
      | none => acc)
    []

/-- Second pass of `RedundancyAnalyzer.analyze` for one matched node
(lines 58-85): if it is a direct dependency and some descendants are
used, emit one aggregate case whose actually_used collects all of them
and whose dependency_path is the first-occurrence deduplication
(`dict.fromkeys`) of the concatenated paths. -/
def aggregateCasesFor (enum : List Dependency → List Dependency)
    (ar : AnalysisResult) (node : Dependency) : List RedundancyCase :=
  if node.depth = 1 then
    let used :=
      ((enum node.get_all_descendants).filter (matchesUsed ar)).map
        Dependency.simple_coordinate
    if used.isEmpty then []
    else
      [{ declared_dependency := node.simple_coordinate
         actually_used := used
         dependency_path := firstOccBy id [] (aggregatePaths node used)
         recommendation :=
           "Consider removing " ++ sglq ++ node.simple_coordinate ++ sglq ++
             " and directly declaring its used transitive dependencies" }]
  else []

/-- Code-point lexicographic order on strings, stated on the underlying
character lists: this is the order of Python `sorted` on str and agrees
with the `≤` of `String` (see `strLe_iff`); it is stated this way so
that comparisons on literals evaluate. -/
def strLe (a b : String) : Prop := ¬ b.data < a.data

instance : DecidableRel strLe := fun a b =>
  inferInstanceAs (Decidable (¬ b.data < a.data))

/-- The sorting order of the conflict versions agrees with the `≤` of
`String`. -/
theorem strLe_iff (a b : String) : strLe a b ↔ a ≤ b := by
  rw [strLe]
  constructor
  · intro h hba
    exact h (String.lt_iff_toList_lt.mp hba)
  · intro h hba
    exact h (String.lt_iff_toList_lt.mpr hba)

instance : IsTotal String strLe :=
  ⟨fun a b => by
    rcases le_total a b with h | h
    · exact Or.inl ((strLe_iff a b).mpr h)
    · exact Or.inr ((strLe_iff b a).mpr h)⟩

instance : IsTrans String strLe :=
  ⟨fun a b c hab hbc =>
    (strLe_iff a c).mpr
      (le_trans ((strLe_iff a b).mp hab) ((strLe_iff b c).mp hbc))⟩

/-- Version conflict record, from the dicts built by
`RedundancyAnalyzer._detect_version_conflicts`: the grouping pair plus
the sorted distinct versions; the reported artifact string is
group:artifact. -/
structure VersionConflict : Type where
  group_id : String
  artifact_id : String
  versions : List String
deriving DecidableEq

/-- Artifact string of a conflict, from `f-string group:artifact`. -/
def VersionConflict.artifact (c : VersionConflict) : String :=
  c.group_id ++ ":" ++ c.artifact_id

/-- Version-conflict detection, from
`RedundancyAnalyzer._detect_version_conflicts`: group the flattened tree
rows by (group_id, artifact_id), collect the distinct versions of each
group, and report the groups with more than one distinct version, with
the versions sorted ascending.  The polars group order and the order of
`unique` are not semantically fixed; groups are modelled in
first-occurrence order and distinct versions by first-occurrence
deduplication, which the final `sorted` makes canonical.  This helper
gives the distinct versions of one grouping pair. -/
def conflictVersionsAt (t : DependencyTree) (p : String × String) :
    List String :=
  firstOccBy id []
    ((t.flatten.filter
        (fun d => d.group_id == p.1 && d.artifact_id == p.2)).map
      Dependency.version)

/-- Grouping keys of the version-conflict detection, in first-occurrence
order: every (group_id, artifact_id) pair present in the tree, once. -/
def conflictPairs (t : DependencyTree) : List (String × String) :=
  firstOccBy id [] (t.flatten.map (fun d => (d.group_id, d.artifact_id)))

/-- Version-conflict detection, from
`RedundancyAnalyzer._detect_version_conflicts`. -/
def RedundancyAnalyzer.detect_version_conflicts (t : DependencyTree) :
    List VersionConflict :=
  (conflictPairs t).filterMap (fun p =>
    if 1 < (conflictVersionsAt t p).length then
      some { group_id := p.1, artifact_id := p.2
             versions := (conflictVersionsAt t p).insertionSort strLe }
    else none)

/-- Python repr of a list of strings, as interpolated by the conflict
recommendation f-string. -/
def pyListRepr (l : List String) : String :=
  "[" ++ String.intercalate ", " (l.map (fun s => sglq ++ s ++ sglq)) ++ "]"

/-- Redundancy case synthesized from a version conflict
(redundancy_analyzer.py lines 89-96): all but the first sorted version
become the actually_used list, the path is empty. -/
def conflictCase (c : VersionConflict) : RedundancyCase :=
  { declared_dependency := c.artifact
    actually_used := c.versions.drop 1
    dependency_path := []
    recommendation :=
      "Multiple versions of " ++ sglq ++ c.artifact ++ sglq ++ " detected: " ++
        pyListRepr c.versions ++ ". Consider consolidating to a single version." }

/-- Validity of a set-enumeration function: Python iterates a set in an
order that is a permutation of its contents, chosen by the interpreter
(string hashes are randomized per process), not by the program input. -/
def ValidEnum (enum : List Dependency → List Dependency) : Prop :=
  ∀ l, List.Perm (enum l) l

/-- Analysis entry point, from `RedundancyAnalyzer.analyze`: the
per-match pass over unused_declared, then the aggregate pass over
unused_declared, then the version conflicts, all appended to one result
list in that order.  `enum` models the iteration order of the descendant
sets. -/
def RedundancyAnalyzer.analyze (enum : List Dependency → List Dependency)
    (tree : DependencyTree) (analysis : AnalysisResult) :
    List RedundancyCase :=
  (analysis.unused_declared.flatMap
    (fun u => (tree.find_dependency u).flatMap (perMatchCasesFor enum analysis)))
  ++ (analysis.unused_declared.flatMap
    (fun u => (tree.find_dependency u).flatMap (aggregateCasesFor enum analysis)))
  ++ (RedundancyAnalyzer.detect_version_conflicts tree).map conflictCase

/-- Induction principle for `Dependency` that provides the induction
hypothesis for every member of the children list. -/
def Dependency.inductionOn {motive : Dependency → Prop}
    (step : ∀ g a v s ty c o dp cs,
      (∀ x ∈ cs, motive x) → motive (Dependency.mk g a v s ty c o dp cs)) :
    ∀ d, motive d
  | .mk g a v s ty c o dp cs =>
      step g a v s ty c o dp cs (fun x _ => Dependency.inductionOn step x)
termination_by d => sizeOf d
decreasing_by
  rename_i hx
  have hlt := List.sizeOf_lt_of_mem hx
  simp
  omega

/-- Unfolding lemma: the flattened subtree is the node followed by the
flattened forest of its children. -/
theorem flattenNode_eq (d : Dependency) :
    flattenNode d = d :: flattenList d.children := by
  cases d with
  | mk g a v s ty c o dp cs => simp [flattenNode, Dependency.children]

/-- A node is a member of its own flattened subtree. -/
theorem self_mem_flattenNode (d : Dependency) : d ∈ flattenNode d := by
  rw [flattenNode_eq]; exact List.mem_cons_self d _

/-- Membership in a flattened forest. -/
theorem mem_flattenList {n : Dependency} {l : List Dependency} :
    n ∈ flattenList l ↔ ∃ c ∈ l, n ∈ flattenNode c := by
  induction l with
  | nil => simp [flattenList]
  | cons c cs ih => simp [flattenList, ih]

/-- Every member of a first-occurrence deduplication is a member of the
input whose key was not previously seen. -/
theorem mem_of_mem_firstOccBy {α β : Type} [DecidableEq β] {key : α → β}
    {seen : List β} {l : List α} {y : α}
    (h : y ∈ firstOccBy key seen l) : y ∈ l ∧ key y ∉ seen := by
  induction l generalizing seen with
  | nil => simp [firstOccBy] at h
  | cons x xs ih =>
    rw [firstOccBy] at h
    by_cases hx : key x ∈ seen
    · simp only [if_pos hx] at h
      rcases ih h with ⟨h1, h2⟩
      exact ⟨List.mem_cons_of_mem _ h1, h2⟩
    · simp only [if_neg hx] at h
      rcases List.mem_cons.mp h with rfl | h
      · exact ⟨List.mem_cons_self _ _, hx⟩
      · rcases ih h with ⟨h1, h2⟩
        refine ⟨List.mem_cons_of_mem _ h1, fun hs => h2 ?_⟩
        exact List.mem_cons_of_mem _ hs

/-- Every key of the input not previously seen is represented in the
first-occurrence deduplication. -/
theorem key_covered_firstOccBy {α β : Type} [DecidableEq β] {key : α → β}
    {seen : List β} {l : List α} {x : α}
    (hx : x ∈ l) (hs : key x ∉ seen) :
    ∃ y ∈ firstOccBy key seen l, key y = key x := by
  induction l generalizing seen with
  | nil => simp at hx
  | cons z zs ih =>
    rw [firstOccBy]
    by_cases hz : key z ∈ seen
    · rcases List.mem_cons.mp hx with rfl | hx'
      · exact absurd hz hs
      · simpa [if_pos hz] using ih hx' hs
    · simp only [if_neg hz]
      rcases List.mem_cons.mp hx with rfl | hx'
      · exact ⟨x, List.mem_cons_self _ _, rfl⟩
      · by_cases hk : key x = key z
        · exact ⟨z, List.mem_cons_self _ _, hk.symm⟩
        · have hs' : key x ∉ key z :: seen := by
            intro hmem
            rcases List.mem_cons.mp hmem with h | h
            · exact hk h
            · exact hs h
          rcases ih hx' hs' with ⟨y, hy, hk'⟩
          exact ⟨y, List.mem_cons_of_mem _ hy, hk'⟩

/-- The keys of a first-occurrence deduplication are distinct and
disjoint from the already-seen keys. -/
theorem nodup_keys_firstOccBy {α β : Type} [DecidableEq β] (key : α → β) :
    ∀ (seen : List β) (l : List α),
      ((firstOccBy key seen l).map key).Nodup ∧
        ∀ y ∈ firstOccBy key seen l, key y ∉ seen := by
  intro seen l
  induction l generalizing seen with
  | nil => simp [firstOccBy]
  | cons x xs ih =>
    rw [firstOccBy]
    by_cases hx : key x ∈ seen
    · simpa [if_pos hx] using ih seen
    · simp only [if_neg hx, List.map_cons, List.nodup_cons]
      rcases ih (key x :: seen) with ⟨ihn, ihs⟩
      refine ⟨⟨?_, ihn⟩, ?_⟩
      · intro hmem
        rcases List.mem_map.mp hmem with ⟨y, hy, hk⟩
        exact ihs y hy (hk ▸ List.mem_cons_self _ _)
      · intro y hy
        rcases List.mem_cons.mp hy with rfl | hy'
        · exact hx
        · intro hmem
          exact ihs y hy' (List.mem_cons_of_mem _ hmem)

/-- When the keys of the input are distinct and unseen, first-occurrence
deduplication is the identity. -/
theorem firstOccBy_eq_self {α β : Type} [DecidableEq β] {key : α → β}
    {l : List α} :
    ∀ {seen : List β}, (l.map key).Nodup → (∀ x ∈ l, key x ∉ seen) →
      firstOccBy key seen l = l := by
  induction l with
  | nil => intro seen _ _; simp [firstOccBy]
  | cons x xs ih =>
    intro seen hnd hseen
    rw [firstOccBy, if_neg (hseen x (List.mem_cons_self _ _))]
    simp only [List.map_cons, List.nodup_cons] at hnd
    refine congrArg (x :: ·) (ih hnd.2 ?_)
    intro y hy hmem
    rcases List.mem_cons.mp hmem with h | h
    · exact hnd.1 (h ▸ List.mem_map_of_mem key hy)
    · exact hseen y (List.mem_cons_of_mem _ hy) h

/-- Membership characterization of first-occurrence deduplication keyed
by the identity. -/
theorem mem_firstOccBy_id {α : Type} [DecidableEq α] {seen : List α}
    {l : List α} {x : α} :
    x ∈ firstOccBy id seen l ↔ x ∈ l ∧ x ∉ seen := by
  constructor
  · exact fun h => mem_of_mem_firstOccBy h
  · rintro ⟨hx, hs⟩
    rcases @key_covered_firstOccBy _ _ _ id _ _ _ hx hs with ⟨y, hy, hk⟩
    simpa [show y = x from hk] using hy

theorem dictGet_cons (k' : String) (v : List Dependency)
    (m : List (String × List Dependency)) (c : String) :
    dictGet ((k', v) :: m) c = if k' = c then v else dictGet m c := by
  by_cases h : k' = c
  · simp [dictGet, List.find?_cons, h]
  · simp [dictGet, List.find?_cons, h]

theorem any_key_eq_isSome (m : List (String × List Dependency)) (k : String) :
    (m.any (fun p => p.1 == k)) = (m.find? (fun p => p.1 == k)).isSome := by
  induction m with
  | nil => rfl
  | cons p m ih =>
    rw [List.any_cons, List.find?_cons]
    cases hp : (p.1 == k) <;> simp [hp, ih]

theorem dictGet_map_append (m : List (String × List Dependency))
    (k c : String) (d : Dependency) :
    dictGet (m.map (fun p => if p.1 == k then (p.1, p.2 ++ [d]) else p)) c =
      if c = k ∧ m.any (fun p => p.1 == k) then dictGet m c ++ [d]
      else dictGet m c := by
  have hfst : ∀ p : String × List Dependency,
      ((if p.1 == k then (p.1, p.2 ++ [d]) else p).1) = p.1 := by
    intro p
    by_cases hp : p.1 = k <;> simp [hp]
  rw [dictGet, List.find?_map]
  have hpred : ((fun p : String × List Dependency => p.1 == c) ∘
      (fun p => if p.1 == k then (p.1, p.2 ++ [d]) else p)) =
        (fun p => p.1 == c) := by
    funext p
    simp only [Function.comp_apply]
    rw [hfst p]
  rw [hpred]
  cases hfind : m.find? (fun p => p.1 == c) with
  | none =>
    have hno : ¬(c = k ∧ m.any (fun p => p.1 == k) = true) := by
      rintro ⟨rfl, hany⟩
      rw [any_key_eq_isSome, hfind] at hany
      simp at hany
    simp only [Option.map_none']
    rw [if_neg hno, dictGet, hfind]
  | some q =>
    have hq1 : q.1 = c := by
      have := List.find?_some hfind
      simpa using this
    simp only [Option.map_some']
    by_cases hc : c = k
    · have hany : m.any (fun p => p.1 == k) = true := by
        rw [any_key_eq_isSome, ← hc, hfind]
        rfl
      have hqk : (q.1 == k) = true := beq_iff_eq.mpr (hq1.trans hc)
      rw [dictGet, hfind]
      simp [hqk, hc, hany]
    · have hqk : (q.1 == k) = false :=
        beq_eq_false_iff_ne.mpr (fun h => hc (hq1.symm.trans h))
      rw [dictGet, hfind]
      simp [hqk, hc]

/-- Lookup after one `indexAppend` step: the appended key gains `d` at
the end of its list, all other keys are unchanged. -/
theorem dictGet_indexAppend (m : List (String × List Dependency))
    (k c : String) (d : Dependency) :
    dictGet (indexAppend m k d) c =
      if c = k then dictGet m c ++ [d] else dictGet m c := by
  rw [indexAppend]
  by_cases hk : m.any (fun p => p.1 == k) = true
  · rw [if_pos hk, dictGet_map_append]
    by_cases hc : c = k
    · simp [hc, hk]
    · simp [hc]
  · rw [if_neg hk]
    have hkm : ∀ p, p ∈ m → ¬(p.1 = k) := by
      intro p hp hpk
      exact hk (List.any_eq_true.mpr ⟨p, hp, beq_iff_eq.mpr hpk⟩)
    clear hk
    induction m with
    | nil =>
      rw [List.nil_append, dictGet_cons]
      by_cases hc : c = k
      · simp [hc, dictGet]
      · have hkc : ¬(k = c) := fun h => hc h.symm
        simp [hc, hkc, dictGet]
    | cons p m ih =>
      obtain ⟨pk, pv⟩ := p
      rw [List.cons_append, dictGet_cons, dictGet_cons]
      by_cases hc : pk = c
      · have hck : ¬(c = k) := by
          intro h
          exact hkm (pk, pv) (List.mem_cons_self _ _) (by simp [hc, h])
        rw [if_pos hc, if_pos hc, if_neg hck]
      · rw [if_neg hc, if_neg hc]
        exact ih (fun p hp => hkm p (List.mem_cons_of_mem _ hp))

/-- Lookup after folding `indexAppend` over a node list: the result at
key `c` is the lookup in the initial dict followed by the nodes of the
list whose simple coordinate is `c`, in list order. -/
theorem dictGet_foldl_indexAppend (l : List Dependency)
    (m : List (String × List Dependency)) (c : String) :
    dictGet (l.foldl (fun m dep => indexAppend m dep.simple_coordinate dep) m) c =
      dictGet m c ++ (l.filter (fun d => d.simple_coordinate == c)) := by
  induction l generalizing m with
  | nil => simp
  | cons d l ih =>
    rw [List.foldl_cons, ih, dictGet_indexAppend, List.filter_cons]
    by_cases hc : c = d.simple_coordinate
    · rw [if_pos hc, if_pos (by simpa using hc.symm), List.append_assoc]
      simp
    · rw [if_neg hc,
        if_neg (by simpa using fun h => hc h.symm)]

/-- Shared form of the C1/C9 index description: the built index answers
a lookup with exactly the tree nodes whose simple coordinate equals the
query, in pre-order. -/
theorem build_index_find_eq_filter (t : DependencyTree) (c : String) :
    (t.build_coordinate_index).find_dependency c =
      t.flatten.filter (fun d => d.simple_coordinate == c) := by
  rw [DependencyTree.build_coordinate_index, DependencyTree.find_dependency]
  simpa [dictGet] using dictGet_foldl_indexAppend t.flatten [] c

/-- Concrete single-node tree whose non-empty scope makes the full
coordinate differ from the simple coordinate. -/
def c1node : Dependency :=
  Dependency.mk "g" "A" "1.0" "compile" "jar" "" false 0 []

/-- Tree over `c1node` with the index built. -/
def c1tree : DependencyTree :=
  (DependencyTree.mk c1node []).build_coordinate_index

/-- C1, counterexample: the tree contains a node whose full coordinate
is g:A:jar:1.0:compile, yet looking that full coordinate up right after
`build_coordinate_index` yields nothing, because the index registers
nodes under their simple coordinate only.  This refutes the claim that
every node is registered under both its full and its simple key and
that a full-coordinate query returns the matching nodes. -/
theorem C1_counterexample :
    c1node ∈ (DependencyTree.mk c1node []).flatten ∧
    c1node.coordinate = "g:A:jar:1.0:compile" ∧
    c1tree.find_dependency "g:A:jar:1.0:compile" = [] := by
  refine ⟨?_, rfl, rfl⟩
  exact List.mem_singleton.mpr rfl

/-- C1 (amended): after `build_coordinate_index`, `find_dependency c`
returns exactly the tree nodes whose simple coordinate equals `c`, in
pre-order discovery order, and every tree node is registered in the
index under its simple coordinate key (the full coordinate is not a
key of its own). -/
theorem C1_index_lookup (t : DependencyTree) (c : String) :
    (t.build_coordinate_index).find_dependency c =
      t.flatten.filter (fun d => d.simple_coordinate == c) ∧
    ∀ d ∈ t.flatten,
      d ∈ (t.build_coordinate_index).find_dependency d.simple_coordinate := by
  refine ⟨build_index_find_eq_filter t c, ?_⟩
  intro d hd
  rw [build_index_find_eq_filter]
  exact List.mem_filter.mpr ⟨hd, by simp⟩

/-- C1 witness: the amended lookup description evaluated on the
concrete one-node tree. -/
theorem C1_index_lookup_witness :
    (c1tree.find_dependency "g:A:1.0" =
      (DependencyTree.mk c1node []).flatten.filter
        (fun d => d.simple_coordinate == "g:A:1.0")) ∧
    c1node ∈ c1tree.find_dependency c1node.simple_coordinate := by
  have h := C1_index_lookup (DependencyTree.mk c1node []) "g:A:1.0"
  exact ⟨h.1, h.2 c1node (List.mem_singleton.mpr rfl)⟩

/-- C9: rebuilding the coordinate index is idempotent (the previous
index is cleared and ignored, so building twice from an unchanged tree
gives the identical index), the construction is a total function, and
every key of the built index holds exactly the nodes carrying it as
simple coordinate, in pre-order traversal order. -/
theorem C9_build_index_idempotent (t : DependencyTree) :
    t.build_coordinate_index.build_coordinate_index =
      t.build_coordinate_index ∧
    ∀ c, (t.build_coordinate_index).find_dependency c =
      t.flatten.filter (fun d => d.simple_coordinate == c) :=
  ⟨rfl, fun c => build_index_find_eq_filter t c⟩

/-- Concrete chain tree root R -> A (depth 1) -> B (depth 2) used by the
scenario claims. -/
def depB : Dependency := Dependency.mk "g" "B" "1.0" "" "jar" "" false 2 []

/-- Direct dependency A of the chain tree. -/
def depA : Dependency := Dependency.mk "g" "A" "1.0" "" "jar" "" false 1 [depB]

/-- Root of the chain tree. -/
def depR : Dependency := Dependency.mk "g" "R" "1.0" "" "jar" "" false 0 [depA]

/-- Chain tree with its coordinate index built (the tree parser always
builds the index right after parsing). -/
def chainTree : DependencyTree :=
  (DependencyTree.mk depR []).build_coordinate_index

/-- Node X at depth 1, used twice as a child to exhibit coordinate
deduplication. -/
def depX : Dependency := Dependency.mk "g" "X" "1.0" "" "jar" "" false 1 []

/-- Root carrying two positionally distinct children with the same full
coordinate. -/
def dupRoot : Dependency := Dependency.mk "g" "R" "1.0" "" "jar" "" false 0 [depX, depX]

/-- C3, counterexample: in a tree whose root has two positionally
distinct children carrying the same full coordinate, the descendant
enumeration of the root has one element, not totalNodes - 1 = 2: the
Python set deduplicates by coordinate (via __hash__/__eq__), so
distinctness is by coordinate, not positional. -/
theorem C3_counterexample :
    (dupRoot.get_all_descendants).length = 1 ∧
    (DependencyTree.mk dupRoot []).total_dependencies - 1 = 2 := by
  exact ⟨rfl, rfl⟩

/-- C3 (amended): the descendant enumeration of a node deduplicates the
strict descendants by full coordinate, keeping the first pre-order
occurrence.  When all nodes of the tree carry pairwise distinct full
coordinates, the enumeration of the root is exactly the pre-order list
of nodes strictly below the root, hence has totalNodes - 1 elements and
excludes the root. -/
theorem C3_descendants (t : DependencyTree)
    (h : ((t.flatten).map Dependency.coordinate).Nodup) :
    t.root.get_all_descendants = flattenList t.root.children ∧
    (t.root.get_all_descendants).length = t.total_dependencies - 1 ∧
    ∀ x ∈ t.root.get_all_descendants, x.coordinate ≠ t.root.coordinate := by
  have hflat : t.flatten = t.root :: flattenList t.root.children := by
    rw [DependencyTree.flatten, flattenNode_eq]
  rw [hflat, List.map_cons, List.nodup_cons] at h
  obtain ⟨hroot, hrest⟩ := h
  have heq : t.root.get_all_descendants = flattenList t.root.children := by
    rw [Dependency.get_all_descendants]
    exact firstOccBy_eq_self hrest (by simp)
  refine ⟨heq, ?_, ?_⟩
  · rw [heq, DependencyTree.total_dependencies, hflat]
    simp
  · intro x hx hcoord
    rw [heq] at hx
    exact hroot (hcoord ▸ List.mem_map_of_mem Dependency.coordinate hx)

/-- C3 witness: the amended description evaluated on the concrete chain
tree, whose three nodes have pairwise distinct coordinates. -/
theorem C3_descendants_witness :
    (((DependencyTree.mk depR []).flatten.map Dependency.coordinate).Nodup) ∧
    depR.get_all_descendants = flattenList depR.children ∧
    (depR.get_all_descendants).length =
      (DependencyTree.mk depR []).total_dependencies - 1 := by
  have hnd : (((DependencyTree.mk depR []).flatten.map
      Dependency.coordinate).Nodup) := by decide
  have h := C3_descendants (DependencyTree.mk depR []) hnd
  exact ⟨hnd, h.1, h.2.1⟩

/-- Congruence for flatMap in the list argument of the function. -/
theorem flatMap_congr {α β : Type} {l : List α} {f g : α → List β}
    (h : ∀ a ∈ l, f a = g a) : l.flatMap f = l.flatMap g := by
  induction l with
  | nil => rfl
  | cons x xs ih =>
    rw [List.flatMap_cons, List.flatMap_cons, h x (List.mem_cons_self _ _),
      ih (fun a ha => h a (List.mem_cons_of_mem _ ha))]

/-- The analysis result depends on the set-enumeration function only
through its values on the descendant sets of the matched nodes. -/
theorem analyze_cong (e₁ e₂ : List Dependency → List Dependency)
    (t : DependencyTree) (rep : AnalysisResult)
    (h : ∀ u ∈ rep.unused_declared, ∀ n ∈ t.find_dependency u,
      e₁ n.get_all_descendants = e₂ n.get_all_descendants) :
    RedundancyAnalyzer.analyze e₁ t rep =
      RedundancyAnalyzer.analyze e₂ t rep := by
  rw [RedundancyAnalyzer.analyze, RedundancyAnalyzer.analyze]
  have h1 : rep.unused_declared.flatMap
      (fun u => (t.find_dependency u).flatMap (perMatchCasesFor e₁ rep)) =
    rep.unused_declared.flatMap
      (fun u => (t.find_dependency u).flatMap (perMatchCasesFor e₂ rep)) := by
    refine flatMap_congr (fun u hu => flatMap_congr (fun n hn => ?_))
    rw [perMatchCasesFor, perMatchCasesFor, h u hu n hn]
  have h2 : rep.unused_declared.flatMap
      (fun u => (t.find_dependency u).flatMap (aggregateCasesFor e₁ rep)) =
    rep.unused_declared.flatMap
      (fun u => (t.find_dependency u).flatMap (aggregateCasesFor e₂ rep)) := by
    refine flatMap_congr (fun u hu => flatMap_congr (fun n hn => ?_))
    rw [aggregateCasesFor, aggregateCasesFor, h u hu n hn]
  rw [h1, h2]

/-- Usage report of the chain scenario: B is used but undeclared, A is
declared but unused. -/
def chainReport : AnalysisResult :=
  { project_coordinate := "g:R:1.0"
    used_undeclared := ["g:B:1.0"]
    unused_declared := ["g:A:1.0"] }

/-- C2: on the chain tree R -> A -> B with unusedDeclared [g:A:1.0] and
usedUndeclared [g:B:1.0], the analysis emits exactly the narrow
per-match finding (declared g:A:1.0, actuallyUsed [g:B:1.0], path
[g:A:1.0, g:B:1.0]) followed by the broad aggregate finding for the
same direct dependency, whatever the set-iteration order. -/
theorem C2_chain_scenario (enum : List Dependency → List Dependency)
    (henum : ValidEnum enum) :
    RedundancyAnalyzer.analyze enum chainTree chainReport =
      [{ declared_dependency := "g:A:1.0"
         actually_used := ["g:B:1.0"]
         dependency_path := ["g:A:1.0", "g:B:1.0"]
         recommendation :=
           "Remove " ++ sglq ++ "g:A:1.0" ++ sglq ++
             " and directly declare " ++ sglq ++ "g:B:1.0" ++ sglq ++
             " instead" },
       { declared_dependency := "g:A:1.0"
         actually_used := ["g:B:1.0"]
         dependency_path := ["g:A:1.0", "g:B:1.0"]
         recommendation :=
           "Consider removing " ++ sglq ++ "g:A:1.0" ++ sglq ++
             " and directly declaring its used transitive dependencies" }] := by
  have hid : RedundancyAnalyzer.analyze enum chainTree chainReport =
      RedundancyAnalyzer.analyze (fun l => l) chainTree chainReport := by
    refine analyze_cong enum (fun l => l) chainTree chainReport ?_
    intro u hu n hn
    have hu' : u = "g:A:1.0" := by
      simpa [chainReport] using hu
    subst hu'
    have hn' : n = depA := by
      have : chainTree.find_dependency "g:A:1.0" = [depA] := rfl
      rw [this] at hn
      simpa using hn
    subst hn'
    have hd : depA.get_all_descendants = [depB] := rfl
    rw [hd]
    exact List.perm_singleton.mp (henum [depB])
  rw [hid]
  rfl

/-- C2 witness: the scenario instantiated with the identity enumeration,
which is a valid set-iteration order. -/
theorem C2_chain_scenario_witness :
    ValidEnum (fun l => l) ∧
    RedundancyAnalyzer.analyze (fun l => l) chainTree chainReport =
      [{ declared_dependency := "g:A:1.0"
         actually_used := ["g:B:1.0"]
         dependency_path := ["g:A:1.0", "g:B:1.0"]
         recommendation :=
           "Remove " ++ sglq ++ "g:A:1.0" ++ sglq ++
             " and directly declare " ++ sglq ++ "g:B:1.0" ++ sglq ++
             " instead" },
       { declared_dependency := "g:A:1.0"
         actually_used := ["g:B:1.0"]
         dependency_path := ["g:A:1.0", "g:B:1.0"]
         recommendation :=
           "Consider removing " ++ sglq ++ "g:A:1.0" ++ sglq ++
             " and directly declaring its used transitive dependencies" }] :=
  ⟨fun l => List.Perm.refl l,
    C2_chain_scenario (fun l => l) (fun l => List.Perm.refl l)⟩

/-- Sibling C of the wide tree, at depth 2. -/
def depC : Dependency := Dependency.mk "g" "C" "1.0" "" "jar" "" false 2 []

/-- Direct dependency of the wide tree with two used children. -/
def depA2 : Dependency := Dependency.mk "g" "A" "1.0" "" "jar" "" false 1 [depB, depC]

/-- Root of the wide tree. -/
def depR2 : Dependency := Dependency.mk "g" "R" "1.0" "" "jar" "" false 0 [depA2]

/-- Wide tree with its coordinate index built. -/
def wideTree : DependencyTree :=
  (DependencyTree.mk depR2 []).build_coordinate_index

/-- Usage report of the wide scenario: both B and C are used but
undeclared, A is declared but unused. -/
def wideReport : AnalysisResult :=
  { project_coordinate := "g:R:1.0"
    used_undeclared := ["g:B:1.0", "g:C:1.0"]
    unused_declared := ["g:A:1.0"] }

/-- C5, counterexample: two runs of analyze on the very same tree and
usage report, differing only in the order in which the interpreter
enumerates the descendant hash set (both orders are permutations of its
contents, as set iteration always is), return different finding lists:
the per-match findings swap places and the aggregate actuallyUsed list
is reversed.  The output order is therefore not a function of the two
inputs alone. -/
theorem C5_counterexample :
    ValidEnum (fun l => l) ∧
    ValidEnum (fun l => l.reverse) ∧
    RedundancyAnalyzer.analyze (fun l => l) wideTree wideReport ≠
      RedundancyAnalyzer.analyze (fun l => l.reverse) wideTree wideReport := by
  refine ⟨fun l => List.Perm.refl l, fun l => List.reverse_perm l, ?_⟩
  intro h
  have hne : ("g:B:1.0" : String) ≠ "g:C:1.0" := by decide
  have hl : (RedundancyAnalyzer.analyze (fun l => l) wideTree
      wideReport).head?.map RedundancyCase.actually_used = some ["g:B:1.0"] := rfl
  have hr : (RedundancyAnalyzer.analyze (fun l => l.reverse) wideTree
      wideReport).head?.map RedundancyCase.actually_used = some ["g:C:1.0"] := rfl
  rw [h, hr] at hl
  simp at hl

/-- C7: a lookup miss is silently skipped — an unusedDeclared entry that
matches no indexed node can be removed from the list without changing
the analysis output — and on an empty usage report the analysis returns
no redundancy finding, only the version conflicts computed from the
tree alone. -/
theorem C7_miss_skipped_and_empty
    (enum : List Dependency → List Dependency) (t : DependencyTree)
    (proj c : String) (used u1 u2 : List String)
    (hmiss : t.find_dependency c = []) :
    RedundancyAnalyzer.analyze enum t ⟨proj, used, u1 ++ c :: u2⟩ =
      RedundancyAnalyzer.analyze enum t ⟨proj, used, u1 ++ u2⟩ ∧
    RedundancyAnalyzer.analyze enum t ⟨proj, [], []⟩ =
      (RedundancyAnalyzer.detect_version_conflicts t).map conflictCase := by
  refine ⟨?_, rfl⟩
  have key : ∀ (g : Dependency → List RedundancyCase),
      (u1 ++ c :: u2).flatMap (fun u => (t.find_dependency u).flatMap g) =
      (u1 ++ u2).flatMap (fun u => (t.find_dependency u).flatMap g) := by
    intro g
    rw [List.flatMap_append, List.flatMap_append, List.flatMap_cons, hmiss]
    simp
  have e1 : RedundancyAnalyzer.analyze enum t ⟨proj, used, u1 ++ c :: u2⟩ =
      (u1 ++ c :: u2).flatMap (fun u => (t.find_dependency u).flatMap
        (perMatchCasesFor enum ⟨proj, used, u1 ++ u2⟩))
      ++ (u1 ++ c :: u2).flatMap (fun u => (t.find_dependency u).flatMap
        (aggregateCasesFor enum ⟨proj, used, u1 ++ u2⟩))
      ++ (RedundancyAnalyzer.detect_version_conflicts t).map conflictCase := rfl
  rw [e1, key (perMatchCasesFor enum ⟨proj, used, u1 ++ u2⟩),
    key (aggregateCasesFor enum ⟨proj, used, u1 ++ u2⟩)]
  rfl

/-- C7 witness: on the chain tree, an entry absent from the index is
skipped, and the empty report yields only the (empty) conflict list. -/
theorem C7_miss_skipped_and_empty_witness :
    chainTree.find_dependency "g:Z:9.9" = [] ∧
    RedundancyAnalyzer.analyze (fun l => l) chainTree
        ⟨"g:R:1.0", [], ["g:Z:9.9"]⟩ =
      RedundancyAnalyzer.analyze (fun l => l) chainTree ⟨"g:R:1.0", [], []⟩ ∧
    RedundancyAnalyzer.analyze (fun l => l) chainTree ⟨"g:R:1.0", [], []⟩ =
      (RedundancyAnalyzer.detect_version_conflicts chainTree).map conflictCase := by
  have h := C7_miss_skipped_and_empty (fun l => l) chainTree
    "g:R:1.0" "g:Z:9.9" [] [] [] rfl
  exact ⟨rfl, h.1, h.2⟩

/-- Membership in the conflict list forces at least two distinct
versions. -/
theorem mem_detect_length (t : DependencyTree) (cfl : VersionConflict)
    (h : cfl ∈ RedundancyAnalyzer.detect_version_conflicts t) :
    1 < cfl.versions.length := by
  rw [RedundancyAnalyzer.detect_version_conflicts] at h
  rcases List.mem_filterMap.mp h with ⟨p, _, hsome⟩
  by_cases hlen : 1 < (conflictVersionsAt t p).length
  · rw [if_pos hlen] at hsome
    have hv : cfl.versions =
        (conflictVersionsAt t p).insertionSort strLe := by
      cases Option.some.inj hsome
      rfl
    rw [hv, (List.perm_insertionSort strLe
      (conflictVersionsAt t p)).length_eq]
    exact hlen
  · rw [if_neg hlen] at hsome
    exact absurd hsome (by simp)

/-- C8: the severity of a redundancy case is high exactly when its
actuallyUsed list is non-empty and medium otherwise; and every case the
analysis emits — per-match, aggregate or version-conflict — has a
non-empty actuallyUsed list, so its severity is high. -/
theorem C8_severity_high (c : RedundancyCase)
    (enum : List Dependency → List Dependency) (t : DependencyTree)
    (rep : AnalysisResult) (x : RedundancyCase)
    (hx : x ∈ RedundancyAnalyzer.analyze enum t rep) :
    (c.actually_used ≠ [] → c.severity = "high") ∧
    (c.actually_used = [] → c.severity = "medium") ∧
    x.severity = "high" := by
  refine ⟨?_, ?_, ?_⟩
  · intro hne
    rw [RedundancyCase.severity,
      if_pos (List.length_pos.mpr hne)]
  · intro he
    rw [RedundancyCase.severity, he]
    rfl
  · have hhigh : ∀ y : RedundancyCase, y.actually_used ≠ [] →
        y.severity = "high" := by
      intro y hy
      rw [RedundancyCase.severity, if_pos (List.length_pos.mpr hy)]
    rw [RedundancyAnalyzer.analyze] at hx
    rcases List.mem_append.mp hx with hx' | hconf
    · rcases List.mem_append.mp hx' with hper | hagg
      · rcases List.mem_flatMap.mp hper with ⟨u, _, hu⟩
        rcases List.mem_flatMap.mp hu with ⟨n, _, hn⟩
        rw [perMatchCasesFor] at hn
        by_cases hd : n.depth = 1
        · rw [if_pos hd] at hn
          rcases List.mem_map.mp hn with ⟨child, _, hc⟩
          refine hhigh x ?_
          rw [← hc, perMatchCase]
          simp
        · rw [if_neg hd] at hn
          exact absurd hn (by simp)
      · rcases List.mem_flatMap.mp hagg with ⟨u, _, hu⟩
        rcases List.mem_flatMap.mp hu with ⟨n, _, hn⟩
        rw [aggregateCasesFor] at hn
        by_cases hd : n.depth = 1
        · rw [if_pos hd] at hn
          by_cases hused : (((enum n.get_all_descendants).filter
              (matchesUsed rep)).map Dependency.simple_coordinate).isEmpty
          · rw [if_pos hused] at hn
            exact absurd hn (by simp)
          · rw [if_neg hused] at hn
            have hx2 := List.mem_singleton.mp hn
            refine hhigh x ?_
            rw [hx2]
            simpa [List.isEmpty_iff] using hused
        · rw [if_neg hd] at hn
          exact absurd hn (by simp)
    · rcases List.mem_map.mp hconf with ⟨cfl, hcfl, hcc⟩
      have hlen := mem_detect_length t cfl hcfl
      refine hhigh x ?_
      rw [← hcc, conflictCase]
      simp only [ne_eq]
      intro hdrop
      have := congrArg List.length hdrop
      rw [List.length_drop] at this
      simp at this
      omega

/-- First finding of the chain scenario, as a named value. -/
def chainCase1 : RedundancyCase :=
  { declared_dependency := "g:A:1.0"
    actually_used := ["g:B:1.0"]
    dependency_path := ["g:A:1.0", "g:B:1.0"]
    recommendation :=
      "Remove " ++ sglq ++ "g:A:1.0" ++ sglq ++
        " and directly declare " ++ sglq ++ "g:B:1.0" ++ sglq ++
        " instead" }

/-- C8 witness: the first finding of the chain scenario is emitted by
the analysis and its severity evaluates to high. -/
theorem C8_severity_high_witness :
    chainCase1 ∈
      RedundancyAnalyzer.analyze (fun l => l) chainTree chainReport ∧
    chainCase1.severity = "high" := by
  have hmem : chainCase1 ∈
      RedundancyAnalyzer.analyze (fun l => l) chainTree chainReport :=
    List.mem_cons_self _ _
  exact ⟨hmem,
    (C8_severity_high ⟨"", [], [], ""⟩ (fun l => l) chainTree chainReport
      chainCase1 hmem).2.2⟩

/-- Unfolding lemma for the path search. -/
theorem find_path_to_eq (d : Dependency) (t : String) :
    d.find_path_to t =
      if d.coordinate = t ∨ d.simple_coordinate = t then some [d]
      else
        match findPathToList d.children t with
        | some p => some (d :: p)
        | none => none := by
  cases d with
  | mk g a v s ty c o dp cs => rfl

/-- Unfolding lemma for the analyzer path search. -/
theorem find_path_in_tree_eq (d : Dependency) (t : String) :
    RedundancyAnalyzer.find_path_in_tree d t =
      if d.simple_coordinate = t ∨ d.coordinate = t then some [d]
      else
        match findPathInTreeList d.children t with
        | some p => some (d :: p)
        | none => none := by
  cases d with
  | mk g a v s ty c o dp cs => rfl

/-- A successful search over a child list comes from one of the
children. -/
theorem findPathToList_some {l : List Dependency} {t : String}
    {p : List Dependency} (h : findPathToList l t = some p) :
    ∃ c ∈ l, c.find_path_to t = some p := by
  induction l with
  | nil => simp [findPathToList] at h
  | cons c cs ih =>
    rw [findPathToList] at h
    cases hc : c.find_path_to t with
    | some q =>
      rw [hc] at h
      exact ⟨c, List.mem_cons_self _ _, hc.trans h⟩
    | none =>
      rw [hc] at h
      rcases ih h with ⟨c', hc', h'⟩
      exact ⟨c', List.mem_cons_of_mem _ hc', h'⟩

/-- The search over a child list succeeds exactly when it succeeds on
some child. -/
theorem findPathToList_isSome {l : List Dependency} {t : String} :
    (findPathToList l t).isSome = true ↔
      ∃ c ∈ l, (c.find_path_to t).isSome = true := by
  induction l with
  | nil => simp [findPathToList]
  | cons c cs ih =>
    rw [findPathToList]
    cases hc : c.find_path_to t with
    | some q => simp [hc]
    | none => simp [hc, ih]

/-- Shape of a found path: it starts at the searched node, consecutive
elements are parent and child, and the final element matches the target
by full or simple coordinate. -/
theorem find_path_to_shape (t : String) :
    ∀ (d : Dependency) (p : List Dependency), d.find_path_to t = some p →
      p.head? = some d ∧ List.Chain' (fun x y => y ∈ x.children) p ∧
      ∃ last, p.getLast? = some last ∧
        (last.coordinate = t ∨ last.simple_coordinate = t) := by
  intro d
  induction d using Dependency.inductionOn with
  | step g a v s ty c o dp cs ih =>
    intro p hp
    rw [find_path_to_eq] at hp
    set node := Dependency.mk g a v s ty c o dp cs with hnode
    have hch : node.children = cs := rfl
    by_cases hm : node.coordinate = t ∨ node.simple_coordinate = t
    · rw [if_pos hm] at hp
      cases Option.some.inj hp
      exact ⟨rfl, List.chain'_singleton _, node, rfl, hm⟩
    · rw [if_neg hm] at hp
      cases hfl : findPathToList node.children t with
      | none =>
        rw [hfl] at hp
        exact absurd hp (by simp)
      | some q =>
        rw [hfl] at hp
        cases Option.some.inj hp
        rw [hch] at hfl
        rcases findPathToList_some hfl with ⟨child, hchild, hcq⟩
        rcases ih child hchild q hcq with ⟨hhead, hchain, last, hlast, hmatch⟩
        refine ⟨rfl, ?_, last, ?_, hmatch⟩
        · rw [List.chain'_cons']
          refine ⟨?_, hchain⟩
          intro b hb
          rw [hhead] at hb
          have hb' : b = child := by
            cases hb
            rfl
          rw [hb', hch]
          exact hchild
        · cases q with
          | nil => exact absurd hhead (by simp)
          | cons b q' => rw [List.getLast?_cons_cons]; exact hlast

/-- Success characterization of the path search: a path is found exactly
when some node of the subtree (the node itself included) matches the
target by full or simple coordinate. -/
theorem find_path_to_isSome (t : String) :
    ∀ (d : Dependency), (d.find_path_to t).isSome = true ↔
      ∃ n ∈ flattenNode d, (n.coordinate = t ∨ n.simple_coordinate = t) := by
  intro d
  induction d using Dependency.inductionOn with
  | step g a v s ty c o dp cs ih =>
    rw [find_path_to_eq]
    set node := Dependency.mk g a v s ty c o dp cs with hnode
    have hch : node.children = cs := rfl
    have hflat : flattenNode node = node :: flattenList cs := by
      rw [flattenNode_eq, hch]
    by_cases hm : node.coordinate = t ∨ node.simple_coordinate = t
    · rw [if_pos hm]
      simp only [Option.isSome_some, true_iff]
      exact ⟨node, by rw [hflat]; exact List.mem_cons_self _ _, hm⟩
    · rw [if_neg hm]
      have hmatch : (match findPathToList node.children t with
          | some p => some (node :: p)
          | none => none).isSome = (findPathToList node.children t).isSome := by
        cases findPathToList node.children t <;> rfl
      rw [hmatch, hch]
      rw [findPathToList_isSome]
      constructor
      · rintro ⟨c, hc, hsome⟩
        rcases (ih c hc).mp hsome with ⟨n, hn, hnm⟩
        refine ⟨n, ?_, hnm⟩
        rw [hflat]
        exact List.mem_cons_of_mem _ (mem_flattenList.mpr ⟨c, hc, hn⟩)
      · rintro ⟨n, hn, hnm⟩
        rw [hflat] at hn
        rcases List.mem_cons.mp hn with rfl | hn'
        · exact absurd hnm hm
        · rcases mem_flattenList.mp hn' with ⟨c, hc, hnc⟩
          exact ⟨c, hc, (ih c hc).mpr ⟨n, hnc, hnm⟩⟩

/-- Boolean test of a match against the target by either coordinate
form. -/
def matchesTarget (t : String) (n : Dependency) : Bool :=
  n.coordinate == t || n.simple_coordinate == t

/-- Boolean and propositional match agree. -/
theorem matchesTarget_iff (t : String) (n : Dependency) :
    matchesTarget t n = true ↔
      (n.coordinate = t ∨ n.simple_coordinate = t) := by
  rw [matchesTarget]
  simp

/-- The depth-first search finds the pre-order first matching node: when
a path is returned its endpoint is the head of the pre-order filter of
matching nodes, and when the search fails no node of the subtree
matches. -/
theorem find_path_to_first (t : String) :
    ∀ (d : Dependency),
      (∀ p, d.find_path_to t = some p →
        ((flattenNode d).filter (matchesTarget t)).head? = p.getLast?) ∧
      (d.find_path_to t = none →
        (flattenNode d).filter (matchesTarget t) = []) := by
  intro d
  induction d using Dependency.inductionOn with
  | step g a v s ty c o dp cs ih =>
    set node := Dependency.mk g a v s ty c o dp cs with hnode
    have hch : node.children = cs := rfl
    have hflat : flattenNode node = node :: flattenList cs := by
      rw [flattenNode_eq, hch]
    have hlist : ∀ l : List Dependency, (∀ x ∈ l, x ∈ cs) →
        (∀ q, findPathToList l t = some q →
          ((flattenList l).filter (matchesTarget t)).head? = q.getLast?) ∧
        (findPathToList l t = none →
          (flattenList l).filter (matchesTarget t) = []) := by
      intro l
      induction l with
      | nil =>
        intro _
        exact ⟨fun q hq => by simp [findPathToList] at hq, fun _ => rfl⟩
      | cons x xs ihl =>
        intro hsub
        have hx := ih x (hsub x (List.mem_cons_self _ _))
        have hxs := ihl (fun y hy => hsub y (List.mem_cons_of_mem _ hy))
        have hfl : flattenList (x :: xs) = flattenNode x ++ flattenList xs := rfl
        constructor
        · intro q hq
          rw [findPathToList] at hq
          rw [hfl, List.filter_append]
          cases hfx : x.find_path_to t with
          | some p' =>
            rw [hfx] at hq
            cases Option.some.inj hq
            have h1 := hx.1 q hfx
            rcases find_path_to_shape t x q hfx with ⟨_, _, last, hlast, _⟩
            rw [List.head?_append, h1, hlast]
            rfl
          | none =>
            rw [hfx] at hq
            rw [hx.2 hfx, List.nil_append]
            exact hxs.1 q hq
        · intro hq
          rw [findPathToList] at hq
          rw [hfl, List.filter_append]
          cases hfx : x.find_path_to t with
          | some p' =>
            rw [hfx] at hq
            exact absurd hq (by simp)
          | none =>
            rw [hfx] at hq
            rw [hx.2 hfx, List.nil_append]
            exact hxs.2 hq
    constructor
    · intro p hp
      rw [find_path_to_eq] at hp
      by_cases hm : node.coordinate = t ∨ node.simple_coordinate = t
      · rw [if_pos hm] at hp
        cases Option.some.inj hp
        rw [hflat, List.filter_cons,
          if_pos (by exact (matchesTarget_iff t node).mpr hm)]
        rfl
      · rw [if_neg hm] at hp
        cases hfq : findPathToList node.children t with
        | none =>
          rw [hfq] at hp
          exact absurd hp (by simp)
        | some q =>
          rw [hfq] at hp
          cases Option.some.inj hp
          rw [hch] at hfq
          have hmB : matchesTarget t node = false := by
            rw [← Bool.not_eq_true]
            intro hb
            exact hm ((matchesTarget_iff t node).mp hb)
          rw [hflat, List.filter_cons, hmB]
          simp only [Bool.false_eq_true, if_false]
          have hq1 := (hlist cs (fun x hx => hx)).1 q hfq
          rcases findPathToList_some hfq with ⟨child, hchild, hcq⟩
          rcases find_path_to_shape t child q hcq with ⟨hhead, _, _, _, _⟩
          cases q with
          | nil => exact absurd hhead (by simp)
          | cons b q' =>
            rw [List.getLast?_cons_cons]
            exact hq1
    · intro hp
      rw [find_path_to_eq] at hp
      by_cases hm : node.coordinate = t ∨ node.simple_coordinate = t
      · rw [if_pos hm] at hp
        exact absurd hp (by simp)
      · rw [if_neg hm] at hp
        cases hfq : findPathToList node.children t with
        | some q =>
          rw [hfq] at hp
          exact absurd hp (by simp)
        | none =>
          rw [hfq] at hp
          rw [hch] at hfq
          have hmB : matchesTarget t node = false := by
            rw [← Bool.not_eq_true]
            intro hb
            exact hm ((matchesTarget_iff t node).mp hb)
          rw [hflat, List.filter_cons, hmB]
          simpa using (hlist cs (fun x hx => hx)).2 hfq

/-- The analyzer path search and the model path search coincide: their
match conditions are the same disjunction with the operands swapped. -/
theorem find_path_in_tree_eq_find_path_to (t : String) :
    ∀ (d : Dependency),
      RedundancyAnalyzer.find_path_in_tree d t = d.find_path_to t := by
  intro d
  induction d using Dependency.inductionOn with
  | step g a v s ty c o dp cs ih =>
    rw [find_path_in_tree_eq, find_path_to_eq]
    set node := Dependency.mk g a v s ty c o dp cs with hnode
    have hch : node.children = cs := rfl
    have hlist : ∀ l : List Dependency, (∀ x ∈ l, x ∈ cs) →
        findPathInTreeList l t = findPathToList l t := by
      intro l
      induction l with
      | nil => intro _; rfl
      | cons x xs ihl =>
        intro hsub
        rw [findPathInTreeList, findPathToList,
          ih x (hsub x (List.mem_cons_self _ _)),
          ihl (fun y hy => hsub y (List.mem_cons_of_mem _ hy))]
    rw [hch, hlist cs (fun x hx => hx)]
    exact if_congr or_comm rfl rfl

/-- C6: the analyzer path search equals the node path search; the search
from a node succeeds exactly when some node of its subtree matches the
target by full or simple coordinate (returning none otherwise); and a
returned path starts at the searched node, follows parent-child edges,
and ends at the pre-order first matching node, which matches the target
by one of the two coordinate forms. -/
theorem C6_path_search (d : Dependency) (t : String) :
    (RedundancyAnalyzer.find_path_in_tree d t = d.find_path_to t) ∧
    ((d.find_path_to t).isSome = true ↔
      ∃ n ∈ flattenNode d, (n.coordinate = t ∨ n.simple_coordinate = t)) ∧
    ∀ p, d.find_path_to t = some p →
      p.head? = some d ∧
      List.Chain' (fun x y => y ∈ x.children) p ∧
      (∃ last, p.getLast? = some last ∧
        (last.coordinate = t ∨ last.simple_coordinate = t)) ∧
      ((flattenNode d).filter (matchesTarget t)).head? = p.getLast? := by
  refine ⟨find_path_in_tree_eq_find_path_to t d, find_path_to_isSome t d, ?_⟩
  intro p hp
  rcases find_path_to_shape t d p hp with ⟨hhead, hchain, last, hlast, hmatch⟩
  exact ⟨hhead, hchain, ⟨last, hlast, hmatch⟩, (find_path_to_first t d).1 p hp⟩

/-- C6 witness: the path from A to its descendant B in the chain tree. -/
theorem C6_path_search_witness :
    depA.find_path_to "g:B:1.0" = some [depA, depB] ∧
    RedundancyAnalyzer.find_path_in_tree depA "g:B:1.0" =
      depA.find_path_to "g:B:1.0" ∧
    [depA, depB].head? = some depA ∧
    (∃ last, ([depA, depB] : List Dependency).getLast? = some last ∧
      (last.coordinate = "g:B:1.0" ∨ last.simple_coordinate = "g:B:1.0")) := by
  have hsome : depA.find_path_to "g:B:1.0" = some [depA, depB] := rfl
  have h := C6_path_search depA "g:B:1.0"
  rcases h.2.2 [depA, depB] hsome with ⟨hh, _, hlast, _⟩
  exact ⟨hsome, h.1, hh, hlast⟩

/-- First-occurrence deduplication by the identity key preserves
distinctness of the elements. -/
theorem nodup_firstOccBy_id {α : Type} [DecidableEq α] (seen : List α)
    (l : List α) : (firstOccBy id seen l).Nodup := by
  have h := (nodup_keys_firstOccBy (id : α → α) seen l).1
  simpa using h

/-- Membership in the grouping keys of the conflict detection. -/
theorem mem_conflictPairs (t : DependencyTree) (p : String × String) :
    p ∈ conflictPairs t ↔
      ∃ d ∈ t.flatten, d.group_id = p.1 ∧ d.artifact_id = p.2 := by
  rw [conflictPairs, mem_firstOccBy_id]
  simp only [List.not_mem_nil, not_false_eq_true, and_true, List.mem_map]
  constructor
  · rintro ⟨d, hd, rfl⟩
    exact ⟨d, hd, rfl, rfl⟩
  · rintro ⟨d, hd, hg, ha⟩
    exact ⟨d, hd, by rw [hg, ha]⟩

/-- Membership in the distinct versions of a grouping pair. -/
theorem mem_conflictVersionsAt (t : DependencyTree) (p : String × String)
    (v : String) :
    v ∈ conflictVersionsAt t p ↔
      ∃ d ∈ t.flatten, d.group_id = p.1 ∧ d.artifact_id = p.2 ∧
        d.version = v := by
  rw [conflictVersionsAt, mem_firstOccBy_id]
  simp only [List.not_mem_nil, not_false_eq_true, and_true, List.mem_map,
    List.mem_filter]
  constructor
  · rintro ⟨d, ⟨hd, hk⟩, rfl⟩
    simp only [Bool.and_eq_true, beq_iff_eq] at hk
    exact ⟨d, hd, hk.1, hk.2, rfl⟩
  · rintro ⟨d, hd, hg, ha, hv⟩
    exact ⟨d, ⟨hd, by simp [hg, ha]⟩, hv⟩

/-- Membership characterization of the conflict list. -/
theorem mem_detect_iff (t : DependencyTree) (c : VersionConflict) :
    c ∈ RedundancyAnalyzer.detect_version_conflicts t ↔
      ∃ p ∈ conflictPairs t, 1 < (conflictVersionsAt t p).length ∧
        c = { group_id := p.1, artifact_id := p.2
              versions := (conflictVersionsAt t p).insertionSort strLe } := by
  rw [RedundancyAnalyzer.detect_version_conflicts, List.mem_filterMap]
  constructor
  · rintro ⟨p, hp, hsome⟩
    by_cases hlen : 1 < (conflictVersionsAt t p).length
    · rw [if_pos hlen] at hsome
      exact ⟨p, hp, hlen, (Option.some.inj hsome).symm⟩
    · rw [if_neg hlen] at hsome
      exact absurd hsome (by simp)
  · rintro ⟨p, hp, hlen, rfl⟩
    exact ⟨p, hp, by rw [if_pos hlen]⟩

/-- A list with two distinct members has more than one element. -/
theorem one_lt_length_of_mem_ne {α : Type} {l : List α} {x y : α}
    (hx : x ∈ l) (hy : y ∈ l) (hne : x ≠ y) : 1 < l.length := by
  cases l with
  | nil => simp at hx
  | cons a l' =>
    cases l' with
    | nil =>
      rw [List.mem_singleton] at hx hy
      exact absurd (hx.trans hy.symm) hne
    | cons b l'' => simp [Nat.lt_add_one_iff]

/-- A duplicate-free list with more than one element has two distinct
members. -/
theorem exists_mem_ne_of_one_lt_length {α : Type} {l : List α}
    (hnd : l.Nodup) (hlen : 1 < l.length) :
    ∃ x ∈ l, ∃ y ∈ l, x ≠ y := by
  cases l with
  | nil => simp at hlen
  | cons a l' =>
    cases l' with
    | nil => simp at hlen
    | cons b l'' =>
      rcases List.nodup_cons.mp hnd with ⟨hab, _⟩
      refine ⟨a, List.mem_cons_self _ _, b,
        List.mem_cons_of_mem _ (List.mem_cons_self _ _), ?_⟩
      intro h
      exact hab (h ▸ List.mem_cons_self _ _)

/-- C4: a version conflict is reported for (g, a) if and only if nodes
with that pair occur in the tree at more than one distinct version;
there is exactly one conflict entry per conflicting pair; the versions
of an entry are the distinct version strings of that pair, sorted
ascending and duplicate free; and the conflict cases are appended after
the redundancy findings in the combined result of analyze. -/
theorem C4_version_conflicts (t : DependencyTree) (g a : String) :
    ((∃ c ∈ RedundancyAnalyzer.detect_version_conflicts t,
        c.group_id = g ∧ c.artifact_id = a) ↔
      ∃ d₁ ∈ t.flatten, ∃ d₂ ∈ t.flatten,
        d₁.group_id = g ∧ d₁.artifact_id = a ∧
        d₂.group_id = g ∧ d₂.artifact_id = a ∧ d₁.version ≠ d₂.version) ∧
    (∀ c₁ ∈ RedundancyAnalyzer.detect_version_conflicts t,
      ∀ c₂ ∈ RedundancyAnalyzer.detect_version_conflicts t,
      c₁.group_id = c₂.group_id → c₁.artifact_id = c₂.artifact_id →
        c₁ = c₂) ∧
    (∀ c ∈ RedundancyAnalyzer.detect_version_conflicts t,
      c.versions.Sorted (· ≤ ·) ∧ c.versions.Nodup ∧
      ∀ v, v ∈ c.versions ↔
        ∃ d ∈ t.flatten, d.group_id = c.group_id ∧
          d.artifact_id = c.artifact_id ∧ d.version = v) ∧
    (∀ enum rep, RedundancyAnalyzer.analyze enum t rep =
      (rep.unused_declared.flatMap (fun u =>
          (t.find_dependency u).flatMap (perMatchCasesFor enum rep)) ++
        rep.unused_declared.flatMap (fun u =>
          (t.find_dependency u).flatMap (aggregateCasesFor enum rep))) ++
      (RedundancyAnalyzer.detect_version_conflicts t).map conflictCase) := by
  refine ⟨?_, ?_, ?_, ?_⟩
  · constructor
    · rintro ⟨c, hc, hg, ha⟩
      rcases (mem_detect_iff t c).mp hc with ⟨p, _, hlen, rfl⟩
      rcases exists_mem_ne_of_one_lt_length
        (nodup_firstOccBy_id _ _) hlen with ⟨v₁, hv₁, v₂, hv₂, hne⟩
      rcases (mem_conflictVersionsAt t p v₁).mp hv₁ with ⟨d₁, hd₁, hg₁, ha₁, hver₁⟩
      rcases (mem_conflictVersionsAt t p v₂).mp hv₂ with ⟨d₂, hd₂, hg₂, ha₂, hver₂⟩
      refine ⟨d₁, hd₁, d₂, hd₂, ?_, ?_, ?_, ?_, ?_⟩
      · exact hg₁.trans hg
      · exact ha₁.trans ha
      · exact hg₂.trans hg
      · exact ha₂.trans ha
      · rw [hver₁, hver₂]; exact hne
    · rintro ⟨d₁, hd₁, d₂, hd₂, hg₁, ha₁, hg₂, ha₂, hne⟩
      have hp : (g, a) ∈ conflictPairs t :=
        (mem_conflictPairs t (g, a)).mpr ⟨d₁, hd₁, hg₁, ha₁⟩
      have hv₁ : d₁.version ∈ conflictVersionsAt t (g, a) :=
        (mem_conflictVersionsAt t (g, a) d₁.version).mpr
          ⟨d₁, hd₁, hg₁, ha₁, rfl⟩
      have hv₂ : d₂.version ∈ conflictVersionsAt t (g, a) :=
        (mem_conflictVersionsAt t (g, a) d₂.version).mpr
          ⟨d₂, hd₂, hg₂, ha₂, rfl⟩
      have hlen := one_lt_length_of_mem_ne hv₁ hv₂ hne
      exact ⟨_, (mem_detect_iff t _).mpr ⟨(g, a), hp, hlen, rfl⟩, rfl, rfl⟩
  · intro c₁ hc₁ c₂ hc₂ hg ha
    rcases (mem_detect_iff t c₁).mp hc₁ with ⟨p₁, _, _, rfl⟩
    rcases (mem_detect_iff t c₂).mp hc₂ with ⟨p₂, _, _, rfl⟩
    have hp : p₁ = p₂ := Prod.ext hg ha
    rw [hp]
  · intro c hc
    rcases (mem_detect_iff t c).mp hc with ⟨p, _, _, rfl⟩
    refine ⟨?_, ?_, ?_⟩
    · exact List.Pairwise.imp (fun h => (strLe_iff _ _).mp h)
        (List.sorted_insertionSort strLe _)
    · exact ((List.perm_insertionSort _ _).nodup_iff).mpr
        (nodup_firstOccBy_id _ _)
    · intro v
      rw [(List.perm_insertionSort strLe
        (conflictVersionsAt t p)).mem_iff]
      exact mem_conflictVersionsAt t p v
  · intro enum rep
    rfl

/-- Second direct dependency of the conflict tree, version 2.0 of X. -/
def depX2 : Dependency := Dependency.mk "g" "X" "2.0" "" "jar" "" false 1 []

/-- Root of the conflict tree carrying X at two versions. -/
def verRoot : Dependency :=
  Dependency.mk "g" "R" "1.0" "" "jar" "" false 0 [depX, depX2]

/-- Conflict tree with its index built. -/
def verTree : DependencyTree :=
  (DependencyTree.mk verRoot []).build_coordinate_index

/-- C4 witness: the conflict tree carries g:X at versions 1.0 and 2.0
and the detector reports exactly one conflict entry, with both versions
sorted. -/
theorem C4_version_conflicts_witness :
    (∃ c ∈ RedundancyAnalyzer.detect_version_conflicts verTree,
      c.group_id = "g" ∧ c.artifact_id = "X") ∧
    RedundancyAnalyzer.detect_version_conflicts verTree =
      [{ group_id := "g", artifact_id := "X", versions := ["1.0", "2.0"] }] := by
  refine ⟨?_, rfl⟩
  refine (C4_version_conflicts verTree "g" "X").1.mpr
    ⟨depX, ?_, depX2, ?_, rfl, rfl, rfl, rfl, by decide⟩
  · exact List.mem_cons_of_mem _ (List.mem_cons_self _ _)
  · exact List.mem_cons_of_mem _
      (List.mem_cons_of_mem _ (List.mem_cons_self _ _))

/-- C10: node equality and hashing are determined solely by the full
coordinate string group:artifact:type:version:scope — pyEq holds exactly
on coordinate equality and the hash key is the coordinate itself, both
ignoring classifier, optional, depth and children — and in the set
machinery (first-occurrence deduplication by coordinate, which is how a
Python set of nodes behaves) coordinate-equal nodes collapse: each
coordinate occurs at most once yet every inserted node is represented. -/
theorem C10_eq_hash_by_coordinate (a b : Dependency) (l : List Dependency) :
    (Dependency.pyEq a b = true ↔ a.coordinate = b.coordinate) ∧
    (Dependency.hashKey a = Dependency.hashKey b ↔
      a.coordinate = b.coordinate) ∧
    ((firstOccBy Dependency.coordinate [] l).map Dependency.coordinate).Nodup ∧
    (a ∈ l → a.coordinate = b.coordinate →
      b.coordinate ∈ (firstOccBy Dependency.coordinate [] l).map
        Dependency.coordinate) := by
  refine ⟨?_, Iff.rfl, (nodup_keys_firstOccBy _ _ _).1, ?_⟩
  · rw [Dependency.pyEq, beq_iff_eq]
  · intro hal hab
    rcases @key_covered_firstOccBy _ _ _ Dependency.coordinate _ _ _ hal
      (List.not_mem_nil _) with ⟨y, hy, hk⟩
    rw [← hab, ← hk]
    exact List.mem_map_of_mem _ hy

/-- First node of the C10 witness pair. -/
def eqNode1 : Dependency :=
  Dependency.mk "g" "A" "1.0" "compile" "jar" "sources" false 0 []

/-- Second node of the C10 witness pair: the same full coordinate but a
different classifier, optional flag, depth and children list. -/
def eqNode2 : Dependency :=
  Dependency.mk "g" "A" "1.0" "compile" "jar" "javadoc" true 3 [depB]

/-- C10 witness: the two nodes differ in classifier, optional, depth and
children, yet compare equal, share the hash key, and collapse to one
element under set insertion. -/
theorem C10_eq_hash_by_coordinate_witness :
    eqNode1.classifier ≠ eqNode2.classifier ∧
    eqNode1.optional ≠ eqNode2.optional ∧
    eqNode1.depth ≠ eqNode2.depth ∧
    eqNode1.children ≠ eqNode2.children ∧
    Dependency.pyEq eqNode1 eqNode2 = true ∧
    Dependency.hashKey eqNode1 = Dependency.hashKey eqNode2 ∧
    firstOccBy Dependency.coordinate [] [eqNode1, eqNode2] = [eqNode1] ∧
    eqNode2.coordinate ∈ (firstOccBy Dependency.coordinate []
      [eqNode1, eqNode2]).map Dependency.coordinate := by
  have h := C10_eq_hash_by_coordinate eqNode1 eqNode2 [eqNode1, eqNode2]
  refine ⟨by decide, by decide, by decide, ?_, h.1.mpr rfl, rfl, rfl, ?_⟩
  · intro hc
    have : ([] : List Dependency).length = [depB].length :=
      congrArg List.length hc
    simp at this
  · exact h.2.2.2 (List.mem_cons_self _ _) rfl

/-- Normal form of a case for order-insensitive comparison: the
list-valued fields are taken as multisets. -/
def normCase (c : RedundancyCase) :
    String × Multiset String × Multiset String × String :=
  (c.declared_dependency, (c.actually_used : Multiset String),
    (c.dependency_path : Multiset String), c.recommendation)

/-- The aggregate path accumulation is a flatMap of per-target path
pieces. -/
theorem aggregatePaths_eq_flatMap (node : Dependency) :
    ∀ (used : List String) (acc : List String),
      used.foldl (fun acc u =>
        match RedundancyAnalyzer.find_path_in_tree node u with
        | some p => acc ++ p.map Dependency.simple_coordinate
        | none => acc) acc =
      acc ++ used.flatMap (fun u =>
        match RedundancyAnalyzer.find_path_in_tree node u with
        | some p => p.map Dependency.simple_coordinate
        | none => []) := by
  intro used
  induction used with
  | nil => intro acc; simp
  | cons u us ih =>
    intro acc
    rw [List.foldl_cons, List.flatMap_cons]
    cases hf : RedundancyAnalyzer.find_path_in_tree node u with
    | some p =>
      simp only [hf]
      rw [ih, List.append_assoc]
    | none =>
      simp only [hf]
      rw [ih, List.nil_append]

/-- First-occurrence deduplications of permuted lists are permuted. -/
theorem firstOccBy_id_perm {α : Type} [DecidableEq α] {l₁ l₂ : List α}
    (h : l₁.Perm l₂) : (firstOccBy id [] l₁).Perm (firstOccBy id [] l₂) := by
  refine (List.perm_ext_iff_of_nodup (nodup_firstOccBy_id _ _)
    (nodup_firstOccBy_id _ _)).mpr ?_
  intro a
  rw [mem_firstOccBy_id, mem_firstOccBy_id, h.mem_iff]

/-- Per-match case lists under two valid enumerations are permutations
of each other. -/
theorem perMatchCasesFor_perm {e₁ e₂ : List Dependency → List Dependency}
    (h₁ : ValidEnum e₁) (h₂ : ValidEnum e₂) (rep : AnalysisResult)
    (n : Dependency) :
    (perMatchCasesFor e₁ rep n).Perm (perMatchCasesFor e₂ rep n) := by
  have hdesc : (e₁ n.get_all_descendants).Perm (e₂ n.get_all_descendants) :=
    (h₁ _).trans (h₂ _).symm
  rw [perMatchCasesFor, perMatchCasesFor]
  by_cases hd : n.depth = 1
  · rw [if_pos hd, if_pos hd]
    exact (hdesc.filter _).map _
  · rw [if_neg hd, if_neg hd]

/-- Aggregate case lists under two valid enumerations agree after
normalization. -/
theorem aggregateCasesFor_norm_eq {e₁ e₂ : List Dependency → List Dependency}
    (h₁ : ValidEnum e₁) (h₂ : ValidEnum e₂) (rep : AnalysisResult)
    (n : Dependency) :
    (aggregateCasesFor e₁ rep n).map normCase =
      (aggregateCasesFor e₂ rep n).map normCase := by
  have hdesc : (e₁ n.get_all_descendants).Perm (e₂ n.get_all_descendants) :=
    (h₁ _).trans (h₂ _).symm
  have hperm : (((e₁ n.get_all_descendants).filter (matchesUsed rep)).map
      Dependency.simple_coordinate).Perm
      (((e₂ n.get_all_descendants).filter (matchesUsed rep)).map
        Dependency.simple_coordinate) :=
    (hdesc.filter _).map _
  rw [aggregateCasesFor, aggregateCasesFor]
  by_cases hd : n.depth = 1
  · rw [if_pos hd, if_pos hd]
    by_cases hemp : (((e₁ n.get_all_descendants).filter
        (matchesUsed rep)).map Dependency.simple_coordinate).isEmpty = true
    · have hemp₂ : (((e₂ n.get_all_descendants).filter
          (matchesUsed rep)).map Dependency.simple_coordinate).isEmpty = true := by
        rw [List.isEmpty_iff] at hemp ⊢
        rw [hemp] at hperm
        exact hperm.symm.eq_nil
      rw [if_pos hemp, if_pos hemp₂]
    · have hemp₂ : ¬(((e₂ n.get_all_descendants).filter
          (matchesUsed rep)).map Dependency.simple_coordinate).isEmpty = true := by
        rw [List.isEmpty_iff] at hemp ⊢
        intro h
        rw [h] at hperm
        exact hemp hperm.eq_nil
      rw [if_neg hemp, if_neg hemp₂]
      have hpaths : (aggregatePaths n (((e₁ n.get_all_descendants).filter
          (matchesUsed rep)).map Dependency.simple_coordinate)).Perm
          (aggregatePaths n (((e₂ n.get_all_descendants).filter
            (matchesUsed rep)).map Dependency.simple_coordinate)) := by
        rw [aggregatePaths, aggregatePaths, aggregatePaths_eq_flatMap,
          aggregatePaths_eq_flatMap, List.nil_append, List.nil_append]
        exact hperm.flatMap_right _
      refine congrArg (fun x => [x]) ?_
      rw [normCase, normCase]
      refine congrArg₂ Prod.mk rfl ?_
      refine congrArg₂ Prod.mk (Multiset.coe_eq_coe.mpr hperm) ?_
      exact congrArg₂ Prod.mk (Multiset.coe_eq_coe.mpr
        (firstOccBy_id_perm hpaths)) rfl
  · rw [if_neg hd, if_neg hd]

/-- C5 (amended): analyze consults nothing but its two arguments and the
set-enumeration order; for a fixed valid enumeration it is a function of
(tree, usageReport), and across any two valid enumeration orders the
outputs agree up to reordering of the findings and of the list-valued
fields (same multiset of normalized findings) and in particular have the
same length; the exact list order, however, is not a function of the
two inputs alone (see the counterexample). -/
theorem C5_enum_invariance (t : DependencyTree) (rep : AnalysisResult)
    (e₁ e₂ : List Dependency → List Dependency)
    (h₁ : ValidEnum e₁) (h₂ : ValidEnum e₂) :
    (((RedundancyAnalyzer.analyze e₁ t rep).map normCase :
        Multiset (String × Multiset String × Multiset String × String)) =
      ((RedundancyAnalyzer.analyze e₂ t rep).map normCase :
        Multiset (String × Multiset String × Multiset String × String))) ∧
    (RedundancyAnalyzer.analyze e₁ t rep).length =
      (RedundancyAnalyzer.analyze e₂ t rep).length := by
  have hs1 : (rep.unused_declared.flatMap (fun u =>
      (t.find_dependency u).flatMap (perMatchCasesFor e₁ rep))).Perm
      (rep.unused_declared.flatMap (fun u =>
        (t.find_dependency u).flatMap (perMatchCasesFor e₂ rep))) := by
    refine List.Perm.flatMap_left _ (fun u _ => ?_)
    exact List.Perm.flatMap_left _ (fun n _ => perMatchCasesFor_perm h₁ h₂ rep n)
  have hs2 : (rep.unused_declared.flatMap (fun u =>
      (t.find_dependency u).flatMap (aggregateCasesFor e₁ rep))).map normCase =
      (rep.unused_declared.flatMap (fun u =>
        (t.find_dependency u).flatMap (aggregateCasesFor e₂ rep))).map normCase := by
    rw [List.map_flatMap, List.map_flatMap]
    refine flatMap_congr (fun u _ => ?_)
    rw [List.map_flatMap, List.map_flatMap]
    exact flatMap_congr (fun n _ => aggregateCasesFor_norm_eq h₁ h₂ rep n)
  have hperm : ((RedundancyAnalyzer.analyze e₁ t rep).map normCase).Perm
      ((RedundancyAnalyzer.analyze e₂ t rep).map normCase) := by
    rw [RedundancyAnalyzer.analyze, RedundancyAnalyzer.analyze,
      List.map_append, List.map_append, List.map_append, List.map_append]
    refine List.Perm.append (List.Perm.append (hs1.map normCase) ?_)
      (List.Perm.refl _)
    rw [hs2]
  have hms := Multiset.coe_eq_coe.mpr hperm
  refine ⟨hms, ?_⟩
  have hlen := hperm.length_eq
  rwa [List.length_map, List.length_map] at hlen

/-- C5 witness: the invariance instantiated on the wide tree with the
identity and the reversing enumerations. -/
theorem C5_enum_invariance_witness :
    ValidEnum (fun l => l) ∧ ValidEnum (fun l => l.reverse) ∧
    (((RedundancyAnalyzer.analyze (fun l => l) wideTree wideReport).map
        normCase :
        Multiset (String × Multiset String × Multiset String × String)) =
      ((RedundancyAnalyzer.analyze (fun l => l.reverse) wideTree
          wideReport).map normCase :
        Multiset (String × Multiset String × Multiset String × String))) :=
  ⟨fun l => List.Perm.refl l, fun l => List.reverse_perm l,
    (C5_enum_invariance wideTree wideReport (fun l => l) (fun l => l.reverse)
      (fun l => List.Perm.refl l) (fun l => List.reverse_perm l)).1⟩
